import Mathlib

/-!
Verification development for the ralphio single-task-per-cycle loop
orchestrator.  The JavaScript source (`ralphio.js`) is shallowly embedded:
pure computations (commit-message sanitization, task-store scanning) become
Lean functions on `String`/`List Char`; the stateful control loop
(`runUntilSuccess`) becomes a fuel-indexed recursion over an abstract world
that answers the two external queries the loop makes (does the task store
still hold unchecked work, does the bounded invocation settle without
throwing); the streamed agent events consumed by `runTask` become a fold
over a list of messages.
-/

namespace Ralphio

/-! ### Loop controller (`runUntilSuccess`)

The source keeps `iteration` (starting at 1), `consecutiveFailures`,
`maxIterations = 50` and `maxConsecutiveFailures = 3`.  Each pass of the
`while (iteration <= maxIterations)` loop first re-checks
`hasUnfinishedTasks()`, then awaits `runTask()`: on success it resets
`consecutiveFailures` to 0, on a throw it increments the counter and calls
`process.exit(1)` once the counter reaches the threshold; falling out of
the while loop calls `process.exit(2)`, and the completion path calls
`process.exit(0)`.

`LoopWorld` abstracts the environment: after `n` invocations have been
performed, `hasTasks n` is what `hasUnfinishedTasks()` reports and
`succeeds n` tells whether the (n+1)-th timeout-bounded `runTask()` settles
without throwing (an iteration fails iff that invocation throws).

`loopFrom W fuel n iteration cf` returns the pair (total number of
invocations performed when the process exits, exit code).  `fuel` is a
structural-recursion bound; it is always called with
`fuel + iteration = maxIterations + 2`, so the fuel-exhaustion branch
(which returns the same value as the while-loop exit) is never the deciding
branch. -/

def maxIterations : Nat := 50

def maxConsecutiveFailures : Nat := 3

structure LoopWorld where
  hasTasks : Nat → Bool
  succeeds : Nat → Bool

def loopFrom (W : LoopWorld) : Nat → Nat → Nat → Nat → Nat × Nat
  | 0, n, _, _ => (n, 2)
  | fuel + 1, n, iteration, cf =>
    if maxIterations < iteration then (n, 2)
    else if W.hasTasks n then
      if W.succeeds n then
        loopFrom W fuel (n + 1) (iteration + 1) 0
      else if maxConsecutiveFailures ≤ cf + 1 then (n + 1, 1)
      else loopFrom W fuel (n + 1) (iteration + 1) (cf + 1)
    else (n, 0)

def runUntilSuccess (W : LoopWorld) : Nat × Nat :=
  if W.hasTasks 0 then loopFrom W (maxIterations + 1) 0 1 0 else (0, 0)

/-- A task store holding `N` unchecked entries driven by an agent that always
succeeds and marks exactly the first unchecked task complete each
iteration: after `n` successful invocations, work remains iff `n < N`. -/
def allSucceedWorld (N : Nat) : LoopWorld :=
  { hasTasks := fun n => decide (n < N), succeeds := fun _ => true }

/-- A world realizing the outcome sequence failure, failure, success,
failure, failure over five remaining tasks. -/
def ffsffWorld : LoopWorld :=
  { hasTasks := fun n => decide (n < 5), succeeds := fun n => decide (n = 2) }

/-! ### Timeout guard (`withTimeout`)

The source races the operation against a `setTimeout` that rejects with
`new Error('Operation timed out after ' + ms + 'ms')`.  A promise is
modelled as `none` (never settles) or `some (t, o)`: it settles at time `t`
with outcome `o`.  The guard neither cancels nor alters the underlying
operation; it only picks the earlier of the operation's settlement and the
timer firing at `ms` (the tie `t = ms` is resolved in favour of the
operation, which is first in the race list). -/

inductive Settled where
  | value : String → Settled
  | err : String → Settled
deriving DecidableEq, Repr

def timeoutMessage (ms : Nat) : String :=
  "Operation timed out after " ++ toString ms ++ "ms"

def withTimeout (op : Option (Nat × Settled)) (ms : Nat) : Nat × Settled :=
  match op with
  | none => (ms, Settled.err (timeoutMessage ms))
  | some (t, o) => if t ≤ ms then (t, o) else (ms, Settled.err (timeoutMessage ms))

/-- Executable substring test, modelling JavaScript
`String.prototype.includes` (used by `runTask` to recognize the timeout
error via `error.message.includes('timed out')`). -/
def listContains (needle : List Char) : List Char → Bool
  | [] => needle.isEmpty
  | c :: cs => needle.isPrefixOf (c :: cs) || listContains needle cs

def strContains (s pat : String) : Bool :=
  listContains pat.toList s.toList

/-! ### Agent invocation (`runTask` event consumption)

`runTask` iterates the streamed messages of the agent query.  The loop
records the session id from the `system`/`init` message, and on a `result`
message stores `message.result` and — only then, and only if a session id
was captured (JavaScript truthiness, so a non-empty one) — appends the
breadcrumb `\n<!-- Last session: <id> -->\n` to `.agent/memory.md`.
Assistant text, tool results and unknown messages only produce log output.
If the stream iterator throws, the accumulated promise rejects with that
error; if the stream is exhausted, the promise resolves with the
accumulated `result` (initialized to the empty string). -/

inductive Msg where
  | init (sessionId : String)
  | assistant (text : String)
  | toolResult (ok : Bool)
  | result (r : String)
  | other
deriving DecidableEq

structure RunState where
  sessionId : Option String
  result : String
  memAppends : List String
deriving DecidableEq

def breadcrumb (sid : String) : String :=
  "\n<!-- Last session: " ++ sid ++ " -->\n"

def stepMsg (s : RunState) : Msg → RunState
  | Msg.init sid => { s with sessionId := some sid }
  | Msg.result r =>
    { s with
      result := r
      memAppends :=
        match s.sessionId with
        | some sid => if sid = "" then s.memAppends else s.memAppends ++ [breadcrumb sid]
        | none => s.memAppends }
  | _ => s

def initialRunState : RunState := { sessionId := none, result := "", memAppends := [] }

def consumeStream (msgs : List Msg) : RunState :=
  msgs.foldl stepMsg initialRunState

/-- One invocation: the stream delivers `msgs` and then either ends cleanly
(`streamErr = none`) or throws (`streamErr = some e`).  Returns the settled
outcome of the query promise together with the breadcrumbs appended to the
memory store along the way. -/
def runTask (msgs : List Msg) (streamErr : Option String) :
    Except String String × List String :=
  let s := consumeStream msgs
  match streamErr with
  | some e => (Except.error e, s.memAppends)
  | none => (Except.ok s.result, s.memAppends)

def isResultMsg : Msg → Bool
  | Msg.result _ => true
  | _ => false

def isInitMsg : Msg → Bool
  | Msg.init _ => true
  | _ => false

/-! ### Commit reconciler (`autoCommitChanges`)

The source sanitizes the task description with
`.replace(/[^a-zA-Z0-9 \-_]/g, '')`, `.replace(/\s+/g, ' ')`, `.trim()`,
then, if longer than 50 characters, truncates to 50 and cuts back to the
last space when that space sits after index 30; a final
`task.trim() || 'task'` supplies the fallback.  `trimChars` models
JavaScript `String.prototype.trim` (strip whitespace from both ends). -/

def isSafeChar (c : Char) : Bool :=
  c.isAlpha || c.isDigit || c == ' ' || c == '-' || c == '_'

def collapseWs : List Char → Bool → List Char
  | [], _ => []
  | c :: cs, prevWs =>
    if c.isWhitespace then
      if prevWs then collapseWs cs true else ' ' :: collapseWs cs true
    else c :: collapseWs cs false

def trimChars (l : List Char) : List Char :=
  ((l.dropWhile Char.isWhitespace).reverse.dropWhile Char.isWhitespace).reverse

def strTrim (s : String) : String :=
  (trimChars s.toList).asString

/-- JavaScript `lastIndexOf`, as an `Option`al index (`none` for -1). -/
def lastIdxOf (c : Char) : List Char → Option Nat
  | [] => none
  | x :: xs =>
    match lastIdxOf c xs with
    | some i => some (i + 1)
    | none => if x == c then some 0 else none

/-- `(taskDescription || 'task')` filtered to the safe character class,
whitespace-collapsed and trimmed — the text the truncation step receives. -/
def cleanedTask (taskDescription : Option String) : List Char :=
  let base :=
    match taskDescription with
    | none => "task"
    | some s => if s = "" then "task" else s
  trimChars (collapseWs (base.toList.filter isSafeChar) false)

def smartTruncate (l : List Char) : List Char :=
  if 50 < l.length then
    let t := l.take 50
    match lastIdxOf ' ' t with
    | some i => if 30 < i then t.take i else t
    | none => t
  else l

def sanitizeTask (taskDescription : Option String) : String :=
  let t := trimChars (smartTruncate (cleanedTask taskDescription))
  if t.isEmpty then "task" else t.asString

/-- `sessionId ? sessionId.slice(-6) : 'nosess'`. -/
def sessionTag : Option String → String
  | none => "nosess"
  | some sid => if sid = "" then "nosess" else (sid.toList.drop (sid.length - 6)).asString

def commitMessage (taskDescription sessionId : Option String) (timestamp : String) : String :=
  "RALPHIO: " ++ sanitizeTask taskDescription ++ " [" ++
    sessionTag sessionId ++ "-" ++ timestamp ++ "]"

inductive GitCmd where
  | statusQuery
  | addAll
  | commit (msg : String)
deriving DecidableEq

inductive CommitOutcome where
  | committed
  | nothingToCommit
  | commitFailed
deriving DecidableEq

/-- `autoCommitChanges(taskDescription, sessionId)`.  The git calls are
abstracted by their observed outputs: `status` is what
`git status --porcelain` prints, `stagedAfterAdd` what
`git diff --cached --stat` prints after `git add -A`, and `commitErr` is
the error message of `git commit` when it throws (`none` for success).
Besides the boolean the source returns, the model reports the qualitative
outcome and the list of git operations that were actually run. -/
def autoCommitChanges (taskDescription sessionId : Option String) (timestamp : String)
    (status stagedAfterAdd : String) (commitErr : Option String) :
    Bool × CommitOutcome × List GitCmd :=
  if strTrim status = "" then
    (true, CommitOutcome.nothingToCommit, [GitCmd.statusQuery])
  else
    let msg := commitMessage taskDescription sessionId timestamp
    if strTrim stagedAfterAdd = "" then
      (true, CommitOutcome.nothingToCommit, [GitCmd.statusQuery, GitCmd.addAll])
    else
      match commitErr with
      | none =>
        (true, CommitOutcome.committed,
          [GitCmd.statusQuery, GitCmd.addAll, GitCmd.commit msg])
      | some e =>
        if strContains e "nothing to commit" then
          (true, CommitOutcome.nothingToCommit,
            [GitCmd.statusQuery, GitCmd.addAll, GitCmd.commit msg])
        else
          (false, CommitOutcome.commitFailed,
            [GitCmd.statusQuery, GitCmd.addAll, GitCmd.commit msg])

def countCommits (cmds : List GitCmd) : Nat :=
  (cmds.filter fun c => match c with | GitCmd.commit _ => true | _ => false).length

/-! ### Task store reader (`hasUnfinishedTasks`)

The source picks `./.agent/planning.md` when it exists, otherwise falls
back to `./planning.md`; a missing pair or any read error yields `false`
(caught and logged).  A readable file is matched against
`/^[ \t]*- \[ \]/gm`, i.e. some line, after optional space/tab
indentation, starts with `- [ ]`.  A file is modelled as missing,
unreadable, or its newline-split list of lines. -/

inductive FileRead where
  | missing
  | unreadable (errMsg : String)
  | readable (lines : List String)

def isUncheckedLine (line : String) : Bool :=
  "- [ ]".toList.isPrefixOf (line.toList.dropWhile fun c => c == ' ' || c == '\t')

def hasUnfinishedTasks (agentPlanning rootPlanning : FileRead) : Bool :=
  match agentPlanning with
  | FileRead.readable ls => ls.any isUncheckedLine
  | FileRead.unreadable _ => false
  | FileRead.missing =>
    match rootPlanning with
    | FileRead.readable ls => ls.any isUncheckedLine
    | _ => false

/-! ## Helper lemmas -/

theorem loopFrom_allSucceed (N : Nat) (hN : N < maxIterations) :
    ∀ fuel n, fuel + n = maxIterations + 1 → n ≤ N →
      loopFrom (allSucceedWorld N) fuel n (n + 1) 0 = (N, 0) := by
  intro fuel
  induction fuel with
  | zero => intro n h1 h2; omega
  | succ fuel ih =>
    intro n h1 h2
    have hit : ¬ maxIterations < n + 1 := by omega
    by_cases hn : n < N
    · have ht : (allSucceedWorld N).hasTasks n = true := by
        simp [allSucceedWorld, hn]
      have hs : (allSucceedWorld N).succeeds n = true := rfl
      simp only [loopFrom]
      rw [if_neg hit, if_pos ht, if_pos hs]
      exact ih (n + 1) (by omega) (by omega)
    · have hn2 : n = N := by omega
      have ht : (allSucceedWorld N).hasTasks n = false := by
        simp [allSucceedWorld, hn2]
      simp only [loopFrom]
      rw [if_neg hit, if_neg (by simp [ht]), hn2]

theorem loopFrom_ceiling (W : LoopWorld)
    (htasks : ∀ m, m < maxIterations → W.hasTasks m = true)
    (hstreak : ∀ k, k + 2 < maxIterations →
      W.succeeds k = true ∨ W.succeeds (k + 1) = true ∨ W.succeeds (k + 2) = true) :
    ∀ fuel n cf, fuel + n = maxIterations + 1 → n ≤ maxIterations →
      (∀ m, n ≤ m → m < maxIterations →
          (∀ k, n ≤ k → k ≤ m → W.succeeds k = false) → cf + (m + 1 - n) ≤ 2) →
      loopFrom W fuel n (n + 1) cf = (maxIterations, 2) := by
  intro fuel
  induction fuel with
  | zero => intro n cf h1 h2 _; omega
  | succ fuel ih =>
    intro n cf h1 h2 hJ
    by_cases hn : n = maxIterations
    · subst hn
      simp only [loopFrom]
      rw [if_pos (by omega : maxIterations < maxIterations + 1)]
    · have hnlt : n < maxIterations := by omega
      have ht := htasks n hnlt
      have hit : ¬ maxIterations < n + 1 := by omega
      simp only [loopFrom]
      rw [if_neg hit, if_pos ht]
      cases hs : W.succeeds n with
      | true =>
        rw [if_pos rfl]
        have hJ2 : ∀ m, n + 1 ≤ m → m < maxIterations →
            (∀ k, n + 1 ≤ k → k ≤ m → W.succeeds k = false) → 0 + (m + 1 - (n + 1)) ≤ 2 := by
          intro m hm1 hm2 hall
          by_contra hcon
          have hm3 : n + 1 + 2 ≤ m := by omega
          rcases hstreak (n + 1) (by omega) with hx | hx | hx
          · rw [hall (n + 1) (by omega) (by omega)] at hx; simp at hx
          · rw [hall (n + 1 + 1) (by omega) (by omega)] at hx; simp at hx
          · rw [hall (n + 1 + 2) (by omega) (by omega)] at hx; simp at hx
        exact ih (n + 1) 0 (by omega) (by omega) hJ2
      | false =>
        rw [if_neg (by simp : ¬ (false = true))]
        have hmax3 : maxConsecutiveFailures = 3 := rfl
        have hcf := hJ n (Nat.le_refl n) hnlt (fun k hk1 hk2 => by
          have hkn : k = n := by omega
          rw [hkn]; exact hs)
        rw [if_neg (by omega : ¬ maxConsecutiveFailures ≤ cf + 1)]
        have hJ2 : ∀ m, n + 1 ≤ m → m < maxIterations →
            (∀ k, n + 1 ≤ k → k ≤ m → W.succeeds k = false) →
            (cf + 1) + (m + 1 - (n + 1)) ≤ 2 := by
          intro m hm1 hm2 hall
          have hallx : ∀ k, n ≤ k → k ≤ m → W.succeeds k = false := by
            intro k hk1 hk2
            by_cases hkn : k = n
            · rw [hkn]; exact hs
            · exact hall k (by omega) hk2
          have := hJ m (by omega) hm2 hallx
          omega
        exact ih (n + 1) (cf + 1) (by omega) (by omega) hJ2

/-! ## Claims about the loop controller -/

/-- C1: in `runUntilSuccess`, every successful iteration resets the
consecutive-failure counter to 0 and every failed iteration increments it;
once the counter reaches `maxConsecutiveFailures = 3` the controller exits
with code 1 immediately, so no 4th consecutive invocation is attempted
(the invocation count of the returned pair is exactly the aborting
invocation); and the outcome sequence failure, failure, success, failure,
failure does not abort (the run drains its 5 tasks and exits 0). -/
theorem c1_consecutive_failure_counter :
    (∀ (W : LoopWorld) (fuel n it cf : Nat), it ≤ maxIterations →
        W.hasTasks n = true → W.succeeds n = true →
        loopFrom W (fuel + 1) n it cf = loopFrom W fuel (n + 1) (it + 1) 0) ∧
    (∀ (W : LoopWorld) (fuel n it cf : Nat), it ≤ maxIterations →
        W.hasTasks n = true → W.succeeds n = false → cf + 1 < maxConsecutiveFailures →
        loopFrom W (fuel + 1) n it cf = loopFrom W fuel (n + 1) (it + 1) (cf + 1)) ∧
    (∀ (W : LoopWorld) (fuel n it cf : Nat), it ≤ maxIterations →
        W.hasTasks n = true → W.succeeds n = false → maxConsecutiveFailures ≤ cf + 1 →
        loopFrom W (fuel + 1) n it cf = (n + 1, 1)) ∧
    runUntilSuccess ffsffWorld = (5, 0) := by
  refine ⟨?_, ?_, ?_, by decide⟩
  · intro W fuel n it cf hit ht hs
    simp only [loopFrom]
    rw [if_neg (by omega : ¬ maxIterations < it), if_pos ht, if_pos hs]
  · intro W fuel n it cf hit ht hs hcf
    simp only [loopFrom]
    rw [if_neg (by omega : ¬ maxIterations < it), if_pos ht, if_neg (by simp [hs]),
      if_neg (by omega : ¬ maxConsecutiveFailures ≤ cf + 1)]
  · intro W fuel n it cf hit ht hs hcf
    simp only [loopFrom]
    rw [if_neg (by omega : ¬ maxIterations < it), if_pos ht, if_neg (by simp [hs]),
      if_pos hcf]

/-- C1 witness: a third consecutive failure (counter already at 2) on the
FFSFF world aborts with exit code 1 after that one invocation. -/
theorem c1_consecutive_failure_counter_witness :
    loopFrom ffsffWorld (9 + 1) 0 1 2 = (0 + 1, 1) :=
  c1_consecutive_failure_counter.2.2.1 ffsffWorld 9 0 1 2 (by decide) (by decide)
    (by decide) (by decide)

/-- C2 counterexample: with 50 unchecked tasks and an always-succeeding
agent, the controller performs 50 iterations (completing every task) but
exits with code 2, not 0 — the `iteration <= maxIterations` check runs
before the task-store re-check, so the claim fails at N = 50. -/
theorem c2_counterexample :
    runUntilSuccess (allSucceedWorld 50) = (50, 2) ∧
      runUntilSuccess (allSucceedWorld 50) ≠ (50, 0) := by
  exact ⟨by decide, by decide⟩

/-- C2 (amended): for every task store with N < 50 unchecked entries, if
every invocation succeeds and each successful iteration marks exactly the
first unchecked task complete, the controller performs exactly N
iterations and exits 0 (N = 0 gives zero iterations immediately); for
N ≥ 50 the 50-iteration ceiling exits with code 2 instead. -/
theorem c2_amended_iterations (N : Nat) (hN : N < maxIterations) :
    runUntilSuccess (allSucceedWorld N) = (N, 0) := by
  unfold runUntilSuccess
  by_cases h0 : 0 < N
  · have ht : (allSucceedWorld N).hasTasks 0 = true := by simp [allSucceedWorld, h0]
    rw [if_pos ht]
    exact loopFrom_allSucceed N hN (maxIterations + 1) 0 (by omega) (by omega)
  · have hN0 : N = 0 := by omega
    subst hN0
    simp [allSucceedWorld]

/-- C2 witness: three unchecked tasks, all-success agent: three iterations
then exit 0. -/
theorem c2_amended_iterations_witness :
    runUntilSuccess (allSucceedWorld 3) = (3, 0) :=
  c2_amended_iterations 3 (by decide)

/-- C3: whenever the task store still reports work before each of the 50
iterations and no three consecutive invocations fail, the controller
performs exactly 50 iterations and exits with code 2 — a 51st invocation
is never started (the invocation count of the result is 50). -/
theorem c3_iteration_ceiling (W : LoopWorld)
    (htasks : ∀ m, m < maxIterations → W.hasTasks m = true)
    (hstreak : ∀ k, k + 2 < maxIterations →
      W.succeeds k = true ∨ W.succeeds (k + 1) = true ∨ W.succeeds (k + 2) = true) :
    runUntilSuccess W = (maxIterations, 2) := by
  unfold runUntilSuccess
  rw [if_pos (htasks 0 (by decide))]
  have hJ : ∀ m, 0 ≤ m → m < maxIterations →
      (∀ k, 0 ≤ k → k ≤ m → W.succeeds k = false) → 0 + (m + 1 - 0) ≤ 2 := by
    intro m _ hm2 hall
    by_contra hcon
    have hm3 : 2 ≤ m := by omega
    rcases hstreak 0 (by omega) with hx | hx | hx
    · rw [hall 0 (by omega) (by omega)] at hx; simp at hx
    · rw [hall 1 (by omega) (by omega)] at hx; simp at hx
    · rw [hall 2 (by omega) (by omega)] at hx; simp at hx
  exact loopFrom_ceiling W htasks hstreak (maxIterations + 1) 0 0 (by omega) (by omega) hJ

/-- C3 witness: tasks always remain and every invocation succeeds, so the
run reaches the ceiling: exactly 50 invocations, exit code 2. -/
theorem c3_iteration_ceiling_witness :
    runUntilSuccess { hasTasks := fun _ => true, succeeds := fun _ => true }
      = (maxIterations, 2) :=
  c3_iteration_ceiling { hasTasks := fun _ => true, succeeds := fun _ => true }
    (fun _ _ => rfl) (fun _ _ => Or.inl rfl)

/-! ## Timeout guard -/

theorem isPrefixOf_append_self (p t : List Char) : p.isPrefixOf (p ++ t) = true := by
  induction p with
  | nil => simp
  | cons c cs ih => simp [List.isPrefixOf_cons₂, ih]

theorem listContains_append_right (needle rest : List Char) :
    ∀ pre, listContains needle rest = true → listContains needle (pre ++ rest) = true := by
  intro pre
  induction pre with
  | nil => intro h; exact h
  | cons c cs ih =>
    intro h
    have h2 := ih h
    show (needle.isPrefixOf (c :: (cs ++ rest)) || listContains needle (cs ++ rest)) = true
    rw [h2]
    simp

theorem listContains_self_append (needle t : List Char) :
    listContains needle (needle ++ t) = true := by
  cases hne : needle with
  | nil => cases t <;> simp [listContains, List.isEmpty]
  | cons c cs =>
    have hp := isPrefixOf_append_self (c :: cs) t
    simp only [List.cons_append] at hp
    simp [listContains, hp]

theorem listContains_split (needle pre t : List Char) :
    listContains needle (pre ++ needle ++ t) = true := by
  have h1 := listContains_self_append needle t
  have h2 := listContains_append_right needle (needle ++ t) pre h1
  simpa [List.append_assoc] using h2

theorem timeoutMessage_contains_timed_out (ms : Nat) :
    strContains (timeoutMessage ms) "timed out" = true := by
  have key : (timeoutMessage ms).toList =
      "Operation ".toList ++ "timed out".toList ++
        (" after ".toList ++ ((toString ms).toList ++ "ms".toList)) := by
    show (timeoutMessage ms).data = _
    simp [timeoutMessage, String.toList, List.append_assoc]
  unfold strContains
  rw [key]
  exact listContains_split _ _ _

/-- C4: for every operation and positive ms, the timeout race: a
never-settling operation makes `withTimeout` reject with the timeout
error; an operation that has not settled within ms (settle time beyond
ms) likewise yields the timeout rejection at ms; an operation settling
strictly first yields exactly the operation's own settlement, unaltered
(the guard holds no cancellation path — the operation value is returned
as-is); and the timeout error message is distinguishable (it contains
"timed out", which the caller's error classification tests for). -/
theorem c4_withTimeout_race :
    (∀ ms : Nat, 0 < ms →
        withTimeout none ms = (ms, Settled.err (timeoutMessage ms))) ∧
    (∀ (ms t : Nat) (o : Settled), 0 < ms → ms < t →
        withTimeout (some (t, o)) ms = (ms, Settled.err (timeoutMessage ms))) ∧
    (∀ (ms t : Nat) (o : Settled), 0 < ms → t < ms →
        withTimeout (some (t, o)) ms = (t, o)) ∧
    (∀ ms : Nat, strContains (timeoutMessage ms) "timed out" = true) := by
  refine ⟨fun ms _ => rfl, ?_, ?_, timeoutMessage_contains_timed_out⟩
  · intro ms t o _ hlt
    show (if t ≤ ms then (t, o) else (ms, Settled.err (timeoutMessage ms)))
      = (ms, Settled.err (timeoutMessage ms))
    rw [if_neg (by omega : ¬ t ≤ ms)]
  · intro ms t o _ hlt
    show (if t ≤ ms then (t, o) else (ms, Settled.err (timeoutMessage ms))) = (t, o)
    rw [if_pos (by omega : t ≤ ms)]

/-- C4 witness: an operation settling at 7 under a 50 ms deadline keeps its
own outcome. -/
theorem c4_withTimeout_race_witness :
    withTimeout (some (7, Settled.value "ok")) 50 = (7, Settled.value "ok") :=
  c4_withTimeout_race.2.2.1 50 7 (Settled.value "ok") (by decide) (by decide)

/-! ## Agent invocation stream -/

theorem foldl_stepMsg_no_result (l : List Msg) :
    ∀ s : RunState, l.all (fun m => !isResultMsg m) = true →
      (l.foldl stepMsg s).result = s.result ∧
        (l.foldl stepMsg s).memAppends = s.memAppends := by
  induction l with
  | nil => intro s _; exact ⟨rfl, rfl⟩
  | cons m l ih =>
    intro s hall
    simp only [List.all_cons, Bool.and_eq_true] at hall
    obtain ⟨hm, hl⟩ := hall
    have hstep : (stepMsg s m).result = s.result ∧ (stepMsg s m).memAppends = s.memAppends := by
      cases m with
      | init sid => exact ⟨rfl, rfl⟩
      | result r => simp [isResultMsg] at hm
      | assistant t => exact ⟨rfl, rfl⟩
      | toolResult ok => exact ⟨rfl, rfl⟩
      | other => exact ⟨rfl, rfl⟩
    simp only [List.foldl_cons]
    have h2 := ih (stepMsg s m) hl
    exact ⟨h2.1.trans hstep.1, h2.2.trans hstep.2⟩

theorem foldl_stepMsg_passive (l : List Msg) :
    ∀ s : RunState, l.all (fun m => !isResultMsg m && !isInitMsg m) = true →
      l.foldl stepMsg s = s := by
  induction l with
  | nil => intro s _; rfl
  | cons m l ih =>
    intro s hall
    simp only [List.all_cons, Bool.and_eq_true] at hall
    obtain ⟨⟨hm1, hm2⟩, hl⟩ := hall
    have hstep : stepMsg s m = s := by
      cases m with
      | init sid => simp [isInitMsg] at hm2
      | result r => simp [isResultMsg] at hm1
      | assistant t => rfl
      | toolResult ok => rfl
      | other => rfl
    simp only [List.foldl_cons, hstep]
    exact ih s hl

/-- C5 counterexample: a stream that starts a session and is then exhausted
without a terminal result event makes `runTask` resolve successfully with
an empty summary — it does not fail. -/
theorem c5_counterexample :
    runTask [Msg.init "abc"] none = (Except.ok "", []) := rfl

/-- C5 (amended): if the transport errors, the call fails with exactly
that error regardless of the events already consumed; but a stream that is
exhausted without a terminal result event makes the call return
successfully with the empty summary (the accumulator's initial value)
rather than failing with an invocation error. -/
theorem c5_amended_invocation_outcome :
    (∀ (msgs : List Msg) (e : String), (runTask msgs (some e)).1 = Except.error e) ∧
    (∀ msgs : List Msg, msgs.all (fun m => !isResultMsg m) = true →
        (runTask msgs none).1 = Except.ok "") := by
  constructor
  · intro msgs e; rfl
  · intro msgs h
    have hres := (foldl_stepMsg_no_result msgs initialRunState h).1
    show Except.ok (List.foldl stepMsg initialRunState msgs).result = Except.ok ""
    rw [hres]
    rfl

/-- C5 witness: a session-start plus assistant text with no result event
resolves successfully with the empty summary. -/
theorem c5_amended_invocation_outcome_witness :
    (runTask [Msg.init "abc", Msg.assistant "hi"] none).1 = Except.ok "" :=
  c5_amended_invocation_outcome.2 [Msg.init "abc", Msg.assistant "hi"] (by decide)

/-- C6 counterexample: an invocation that receives a SessionStarted event
but no terminal result event appends no breadcrumb to the memory store —
the append is not performed upon SessionStarted, contradicting the claim
that it happens regardless of whether a terminal event later arrives. -/
theorem c6_counterexample :
    (runTask [Msg.init "sess-42"] none).2 = [] := rfl

/-- C6 (amended): the session-id breadcrumb is appended to the memory
store upon the terminal result event, not upon SessionStarted: a stream
with no result event appends nothing (even if a session started), and a
stream that starts a session and later delivers exactly one terminal
result event appends the breadcrumb exactly once, whether or not the
stream errors afterwards. -/
theorem c6_amended_breadcrumb_on_result :
    (∀ (msgs : List Msg) (err : Option String),
        msgs.all (fun m => !isResultMsg m) = true → (runTask msgs err).2 = []) ∧
    (∀ (sid r : String) (ms1 ms2 : List Msg) (err : Option String), sid ≠ "" →
        ms1.all (fun m => !isResultMsg m) = true →
        ms2.all (fun m => !isResultMsg m && !isInitMsg m) = true →
        (runTask (ms1 ++ [Msg.init sid] ++ ms2 ++ [Msg.result r]) err).2
          = [breadcrumb sid]) := by
  constructor
  · intro msgs err h
    have hmem := (foldl_stepMsg_no_result msgs initialRunState h).2
    cases err with
    | none =>
      show (List.foldl stepMsg initialRunState msgs).memAppends = []
      rw [hmem]
      rfl
    | some e =>
      show (List.foldl stepMsg initialRunState msgs).memAppends = []
      rw [hmem]
      rfl
  · intro sid r ms1 ms2 err hsid h1 h2
    have key : (consumeStream (ms1 ++ [Msg.init sid] ++ ms2 ++ [Msg.result r])).memAppends
        = [breadcrumb sid] := by
      unfold consumeStream
      rw [List.foldl_append, List.foldl_append, List.foldl_append]
      have hs1 := (foldl_stepMsg_no_result ms1 initialRunState h1).2
      have hpassive := foldl_stepMsg_passive ms2
        { List.foldl stepMsg initialRunState ms1 with sessionId := some sid } h2
      simp only [List.foldl_cons, List.foldl_nil]
      rw [show stepMsg (List.foldl stepMsg initialRunState ms1) (Msg.init sid)
          = { List.foldl stepMsg initialRunState ms1 with sessionId := some sid } from rfl]
      rw [hpassive]
      simp [stepMsg, hsid, hs1]
      rfl
    cases err with
    | none => exact key
    | some e => exact key

/-- C6 witness: a concrete stream — assistant text, session start, a tool
result, then the terminal result — appends exactly one breadcrumb. -/
theorem c6_amended_breadcrumb_on_result_witness :
    (runTask [Msg.assistant "start", Msg.init "sess-99", Msg.toolResult true,
      Msg.result "done"] none).2 = [breadcrumb "sess-99"] :=
  c6_amended_breadcrumb_on_result.2 "sess-99" "done" [Msg.assistant "start"]
    [Msg.toolResult true] none (by decide) (by decide) (by decide)

/-! ## Commit reconciler -/

/-- C7: the reconciler is idempotent on a clean working tree: a clean
status query yields `NothingToCommit` as a success outcome (boolean true)
with only the status query executed — no staging, no commit — so two
consecutive calls on an unchanged tree both return `NothingToCommit` and
together run zero commit operations; and when staging produces no staged
delta the reconciler likewise returns `NothingToCommit` without
committing. -/
theorem c7_reconciler_idempotent :
    (∀ (task sid : Option String) (ts status staged : String) (cerr : Option String),
        strTrim status = "" →
        autoCommitChanges task sid ts status staged cerr
          = (true, CommitOutcome.nothingToCommit, [GitCmd.statusQuery])) ∧
    (∀ (task sid : Option String) (ts status staged : String) (cerr : Option String),
        strTrim status ≠ "" → strTrim staged = "" →
        autoCommitChanges task sid ts status staged cerr
          = (true, CommitOutcome.nothingToCommit, [GitCmd.statusQuery, GitCmd.addAll])) ∧
    (∀ (task sid : Option String) (ts status staged : String) (cerr : Option String),
        strTrim status = "" →
        countCommits ((autoCommitChanges task sid ts status staged cerr).2.2
          ++ (autoCommitChanges task sid ts status staged cerr).2.2) = 0) := by
  have p1 : ∀ (task sid : Option String) (ts status staged : String) (cerr : Option String),
      strTrim status = "" →
      autoCommitChanges task sid ts status staged cerr
        = (true, CommitOutcome.nothingToCommit, [GitCmd.statusQuery]) := by
    intro task sid ts status staged cerr h
    unfold autoCommitChanges
    rw [if_pos h]
  refine ⟨p1, ?_, ?_⟩
  · intro task sid ts status staged cerr h1 h2
    simp [autoCommitChanges, h1, h2]
  · intro task sid ts status staged cerr h
    rw [p1 task sid ts status staged cerr h]
    rfl

/-- C7 witness: a clean status short-circuits to `NothingToCommit` with
only the status query executed. -/
theorem c7_reconciler_idempotent_witness :
    autoCommitChanges (some "t") (some "s") "120000" "  " "" none
      = (true, CommitOutcome.nothingToCommit, [GitCmd.statusQuery]) :=
  c7_reconciler_idempotent.1 (some "t") (some "s") "120000" "  " "" none (by decide)

/-! ## Sanitizer lemmas -/

theorem mem_trimChars {a : Char} {l : List Char} (h : a ∈ trimChars l) : a ∈ l := by
  unfold trimChars at h
  rw [List.mem_reverse] at h
  have h1 : a ∈ (l.dropWhile Char.isWhitespace).reverse :=
    (List.dropWhile_sublist _).subset h
  rw [List.mem_reverse] at h1
  exact (List.dropWhile_sublist _).subset h1

theorem length_trimChars_le (l : List Char) : (trimChars l).length ≤ l.length := by
  unfold trimChars
  rw [List.length_reverse]
  calc ((l.dropWhile Char.isWhitespace).reverse.dropWhile Char.isWhitespace).length
      ≤ (l.dropWhile Char.isWhitespace).reverse.length := (List.dropWhile_sublist _).length_le
    _ = (l.dropWhile Char.isWhitespace).length := List.length_reverse _
    _ ≤ l.length := (List.dropWhile_sublist _).length_le

theorem mem_collapseWs {a : Char} :
    ∀ (l : List Char) (b : Bool), a ∈ collapseWs l b → a = ' ' ∨ a ∈ l := by
  intro l
  induction l with
  | nil =>
    intro b h
    simp [collapseWs] at h
  | cons c cs ih =>
    intro b h
    cases hw : c.isWhitespace with
    | true =>
      cases b with
      | true =>
        simp only [collapseWs, hw, if_pos] at h
        rcases ih true h with h1 | h1
        · exact Or.inl h1
        · exact Or.inr (List.mem_cons_of_mem _ h1)
      | false =>
        simp only [collapseWs, hw, if_pos] at h
        rcases List.mem_cons.mp h with h1 | h1
        · exact Or.inl h1
        · rcases ih true h1 with h2 | h2
          · exact Or.inl h2
          · exact Or.inr (List.mem_cons_of_mem _ h2)
    | false =>
      simp only [collapseWs, hw, Bool.false_eq_true, if_false] at h
      rcases List.mem_cons.mp h with h1 | h1
      · exact Or.inr (h1 ▸ List.mem_cons_self _ _)
      · rcases ih false h1 with h2 | h2
        · exact Or.inl h2
        · exact Or.inr (List.mem_cons_of_mem _ h2)

theorem cleanedTask_all_safe (td : Option String) :
    ∀ a ∈ cleanedTask td, isSafeChar a = true := by
  intro a ha
  unfold cleanedTask at ha
  have h1 := mem_trimChars ha
  rcases mem_collapseWs _ _ h1 with h2 | h2
  · rw [h2]; decide
  · exact List.of_mem_filter h2

theorem mem_smartTruncate {a : Char} {l : List Char} (h : a ∈ smartTruncate l) : a ∈ l := by
  by_cases h50 : 50 < l.length
  · rcases hidx : lastIdxOf ' ' (l.take 50) with _ | i
    · simp only [smartTruncate, if_pos h50, hidx] at h
      exact List.mem_of_mem_take h
    · by_cases h30 : 30 < i
      · simp only [smartTruncate, if_pos h50, hidx, if_pos h30] at h
        exact List.mem_of_mem_take (List.mem_of_mem_take h)
      · simp only [smartTruncate, if_pos h50, hidx, if_neg h30] at h
        exact List.mem_of_mem_take h
  · simp only [smartTruncate, if_neg h50] at h
    exact h

theorem length_smartTruncate_le (l : List Char) : (smartTruncate l).length ≤ 50 := by
  by_cases h50 : 50 < l.length
  · rcases hidx : lastIdxOf ' ' (l.take 50) with _ | i
    · simp only [smartTruncate, if_pos h50, hidx]
      simp [List.length_take]
    · by_cases h30 : 30 < i
      · simp only [smartTruncate, if_pos h50, hidx, if_pos h30]
        simp only [List.length_take]
        omega
      · simp only [smartTruncate, if_pos h50, hidx, if_neg h30]
        simp [List.length_take]
  · simp only [smartTruncate, if_neg h50]
    omega

theorem sanitizeTask_all_safe (td : Option String) :
    (sanitizeTask td).toList.all isSafeChar = true := by
  unfold sanitizeTask
  set t := trimChars (smartTruncate (cleanedTask td)) with ht
  by_cases he : t.isEmpty = true
  · rw [if_pos he]; decide
  · rw [if_neg he]
    show t.all isSafeChar = true
    rw [List.all_eq_true]
    intro a ha
    rw [ht] at ha
    have h1 := mem_trimChars ha
    have h2 := mem_smartTruncate h1
    exact cleanedTask_all_safe td a h2

theorem sanitizeTask_length_le (td : Option String) : (sanitizeTask td).length ≤ 50 := by
  unfold sanitizeTask
  set t := trimChars (smartTruncate (cleanedTask td)) with ht
  by_cases he : t.isEmpty = true
  · rw [if_pos he]; decide
  · rw [if_neg he]
    show t.length ≤ 50
    calc t.length ≤ (smartTruncate (cleanedTask td)).length := by
          rw [ht]; exact length_trimChars_le _
      _ ≤ 50 := length_smartTruncate_le _

theorem sanitizeTask_ne_empty (td : Option String) : sanitizeTask td ≠ "" := by
  unfold sanitizeTask
  set t := trimChars (smartTruncate (cleanedTask td)) with ht
  by_cases he : t.isEmpty = true
  · rw [if_pos he]; decide
  · rw [if_neg he]
    intro hcon
    apply he
    have hnil : t = [] := by
      have hd := congrArg String.data hcon
      simpa using hd
    rw [hnil]
    rfl

theorem lastIdxOf_getElem (c : Char) :
    ∀ (l : List Char) (i : Nat), lastIdxOf c l = some i → l[i]? = some c := by
  intro l
  induction l with
  | nil =>
    intro i h
    simp [lastIdxOf] at h
  | cons x xs ih =>
    intro i h
    rcases hxs : lastIdxOf c xs with _ | j
    · simp only [lastIdxOf, hxs] at h
      by_cases hxc : x == c
      · rw [if_pos hxc] at h
        have h0 : i = 0 := by
          have := h
          simp at this
          omega
        subst h0
        simp only [List.getElem?_cons_zero]
        have : x = c := by simpa using hxc
        rw [this]
      · rw [if_neg hxc] at h
        cases h
    · simp only [lastIdxOf, hxs] at h
      have hj : i = j + 1 := by
        have := h
        simp at this
        omega
      subst hj
      simp only [List.getElem?_cons_succ]
      exact ih j hxs

theorem smartTruncate_word_boundary (l : List Char) (i : Nat)
    (h50 : 50 < l.length) (hidx : lastIdxOf ' ' (l.take 50) = some i) (h30 : 30 < i) :
    smartTruncate l = (l.take 50).take i ∧ (l.take 50)[i]? = some ' ' :=
  ⟨by simp only [smartTruncate, if_pos h50, hidx, if_pos h30],
    lastIdxOf_getElem ' ' (l.take 50) i hidx⟩

/-- C8 counterexample: the claim's universal "truncated at a word
boundary" fails.  For a task description that is a single 60-character
word, the sanitized text is the bare 50-character prefix: the cleaned text
has no space in its 50-character prefix (`lastIdxOf` returns none, the
model of `lastIndexOf` returning -1) and the character right after the
cut is another letter of the same word, so the cut is mid-word. -/
theorem c8_counterexample :
    sanitizeTask (some (String.mk (List.replicate 60 'a')))
      = String.mk (List.replicate 50 'a') ∧
    lastIdxOf ' ' ((cleanedTask (some (String.mk (List.replicate 60 'a')))).take 50) = none ∧
    (cleanedTask (some (String.mk (List.replicate 60 'a'))))[50]? = some 'a' :=
  ⟨by decide, by decide, by decide⟩

/-- C8 (amended): for every task description, the sanitized task text
contains only characters from the safe class `[A-Za-z0-9 _-]` and is at
most 50 characters; the truncation is at a word boundary only
conditionally: when the 50-character truncation applies and the last
space of the truncated prefix sits past index 30, the text is cut exactly
at that space (the dropped remainder starts with the space), but when the
50-character prefix contains no space, or its last space sits at index 30
or earlier, the text is cut mid-word at exactly 50 characters; the
example "Add POST /login endpoint!! (urgent)" sanitizes to exactly
"Add POST login endpoint urgent"; and the synthesized commit message
embeds that text with the session/time suffix. -/
theorem c8_commit_message_sanitization :
    (∀ td : Option String,
        (sanitizeTask td).toList.all isSafeChar = true ∧ (sanitizeTask td).length ≤ 50) ∧
    (∀ (l : List Char) (i : Nat), 50 < l.length → lastIdxOf ' ' (l.take 50) = some i →
        30 < i → smartTruncate l = (l.take 50).take i ∧ (l.take 50)[i]? = some ' ') ∧
    (∀ l : List Char, 50 < l.length → lastIdxOf ' ' (l.take 50) = none →
        smartTruncate l = l.take 50) ∧
    (∀ (l : List Char) (i : Nat), 50 < l.length → lastIdxOf ' ' (l.take 50) = some i →
        ¬ 30 < i → smartTruncate l = l.take 50) ∧
    sanitizeTask (some "Add POST /login endpoint!! (urgent)")
      = "Add POST login endpoint urgent" ∧
    commitMessage (some "Add POST /login endpoint!! (urgent)") (some "sess-abc123") "143022"
      = "RALPHIO: Add POST login endpoint urgent [abc123-143022]" :=
  ⟨fun td => ⟨sanitizeTask_all_safe td, sanitizeTask_length_le td⟩,
    smartTruncate_word_boundary,
    fun l h50 hidx => by simp only [smartTruncate, if_pos h50, hidx],
    fun l i h50 hidx h30 => by simp only [smartTruncate, if_pos h50, hidx, if_neg h30],
    by decide, by decide⟩

/-- C8 witness: 40 letters, a space, then 40 more letters truncates at the
space (index 40 of the 50-character prefix). -/
theorem c8_commit_message_sanitization_witness :
    smartTruncate (List.replicate 40 'a' ++ ' ' :: List.replicate 40 'b')
      = ((List.replicate 40 'a' ++ ' ' :: List.replicate 40 'b').take 50).take 40 ∧
    ((List.replicate 40 'a' ++ ' ' :: List.replicate 40 'b').take 50)[40]? = some ' ' :=
  c8_commit_message_sanitization.2.1 (List.replicate 40 'a' ++ ' ' :: List.replicate 40 'b')
    40 (by decide) (by decide) (by decide)

/-! ## Task store reader -/

/-- C9: `hasUnfinishedTasks` is a total boolean function of the task-store
state (it never throws): it returns false when both planning files are
missing, when the selected file is unreadable, and when no line of a
readable file matches the unchecked marker; for a readable store it
returns true exactly when some line, at any indentation, matches the
unchecked pattern `- [ ]`. -/
theorem c9_store_reader_degrades :
    (hasUnfinishedTasks FileRead.missing FileRead.missing = false) ∧
    (∀ (e : String) (r : FileRead), hasUnfinishedTasks (FileRead.unreadable e) r = false) ∧
    (∀ e : String, hasUnfinishedTasks FileRead.missing (FileRead.unreadable e) = false) ∧
    (∀ (ls : List String) (r : FileRead),
        hasUnfinishedTasks (FileRead.readable ls) r = ls.any isUncheckedLine) ∧
    (∀ ls : List String,
        hasUnfinishedTasks FileRead.missing (FileRead.readable ls) = ls.any isUncheckedLine) :=
  ⟨rfl, fun _ _ => rfl, fun _ => rfl, fun _ _ => rfl, fun _ => rfl⟩

/-- C10: the task segment of the commit message is never empty and never
longer than 50 characters, for every input including null (missing task
text), the empty string, and strings whose characters are all outside the
safe class — in those cases sanitization removes everything and the
literal fallback "task" is used. -/
theorem c10_task_segment_fallback :
    sanitizeTask none = "task" ∧
    sanitizeTask (some "") = "task" ∧
    (∀ s : String, s.toList.all (fun c => !isSafeChar c) = true →
        sanitizeTask (some s) = "task") ∧
    (∀ td : Option String, sanitizeTask td ≠ "" ∧ (sanitizeTask td).length ≤ 50) := by
  refine ⟨by decide, by decide, ?_,
    fun td => ⟨sanitizeTask_ne_empty td, sanitizeTask_length_le td⟩⟩
  intro s hall
  by_cases hs : s = ""
  · rw [hs]; decide
  · have hfil : s.toList.filter isSafeChar = [] := by
      rw [List.filter_eq_nil_iff]
      intro a ha
      have h1 := List.all_eq_true.mp hall a ha
      simpa using h1
    have hclean : cleanedTask (some s) = [] := by
      simp only [cleanedTask, hs, if_false]
      rw [hfil]
      rfl
    unfold sanitizeTask
    rw [hclean]
    rfl

/-- C10 witness: a task description consisting only of unsafe characters
falls back to the literal "task". -/
theorem c10_task_segment_fallback_witness :
    sanitizeTask (some "!!!(((") = "task" :=
  c10_task_segment_fallback.2.2.1 "!!!(((" (by decide)

end Ralphio
